import Mathlib

/-!
Verification of the path data model and directory walker of `ren-general`
(`filesystem.cxx`), on the root-relative (non-Windows) platform branch.

Strings are modelled as lists of characters; a path is the list of its
segments, each a list of characters, exactly as `Path::Parts` holds a
`std::list<String>` of parts.
-/

/-- A string (list of characters), as used for raw paths and segments. -/
abbrev Seg := List Char

namespace RenGeneral

/-- Model of `IsAbsolute` (non-Windows branch): the first character is the separator. -/
def isAbsolute : Seg → Bool
  | '/' :: _ => true
  | _ => false

/-- Model of `PathStringIterator`: splitting the raw string at every `'/'`.  Each
`FindNext`/`Read` pair yields the substring between consecutive separators;
consecutive separators yield empty tokens and the final token runs to the
end of the string. -/
def tokenize : List Char → List Seg
  | [] => [[]]
  | c :: rest =>
    if c = '/' then [] :: tokenize rest
    else
      match tokenize rest with
      | [] => [[c]]
      | t :: ts => (c :: t) :: ts

/-- The token-processing loop of `Path::Path`: empty tokens and `"."` are
discarded, `".."` pops the last pushed part (failing when none remains),
anything else is pushed. -/
def normalizeTokens : List Seg → List Seg → Option (List Seg)
  | parts, [] => some parts
  | parts, tok :: rest =>
    if tok = [] then normalizeTokens parts rest
    else if tok = ['.', '.'] then
      if parts = [] then none
      else normalizeTokens parts.dropLast rest
    else if tok = ['.'] then normalizeTokens parts rest
    else normalizeTokens (parts ++ [tok]) rest

/-- Model of `Path::Path(String const &Absolute)`: `none` models a thrown
`Error::Construction`. -/
def pathConstruct (absolute : Seg) : Option (List Seg) :=
  if absolute = [] then none
  else if !isAbsolute absolute then none
  else normalizeTokens [] (tokenize absolute)

/-- Model of `Path::AsAbsoluteString` (non-Windows branch): `"/"` for the empty part
list, otherwise each part preceded by a separator. -/
def asAbsoluteString (parts : List Seg) : Seg :=
  if parts = [] then ['/']
  else (parts.map (fun p => '/' :: p)).flatten

/-- Model of `Path::FindCommonRoot`: lock-step comparison from the front; returns the
common prefix together with both remainders (the iterators at the
divergence points). -/
def findCommonRoot : List Seg → List Seg → List Seg × List Seg × List Seg
  | [], bs => ([], [], bs)
  | a :: as, [] => ([], a :: as, [])
  | a :: as, b :: bs =>
    if a = b then
      let r := findCommonRoot as bs
      (a :: r.1, r.2.1, r.2.2)
    else ([], a :: as, b :: bs)

/-- The `AppendPart` join of `Path::AsRelativeString`: parts joined by the
separator with no leading or trailing separator. -/
def joinSep : List Seg → Seg
  | [] => []
  | [t] => t
  | t :: ts => t ++ '/' :: joinSep ts

/-- Model of `Path::AsRelativeString(From)`: one `".."` per remaining part of `From`
after the common root, then this path's remaining parts. -/
def asRelativeString (here fromParts : List Seg) : Seg :=
  let r := findCommonRoot here fromParts
  joinSep (r.2.2.map (fun _ => ['.', '.']) ++ r.2.1)

/-- Model of `FilePath::File`: the last part (`Parts.back()`); `none` models the
undefined call on an empty part list. -/
def FilePath.file (parts : List Seg) : Option Seg := parts.getLast?

/-- Model of `FilePath::Directory`: all parts but the last. -/
def FilePath.directory (parts : List Seg) : List Seg := parts.dropLast

/-- Model of `DirectoryPath::Select(File)`: the directory's parts with the file name
pushed at the back (`FilePath(Parts, Filename)`). -/
def DirectoryPath.select (parts : List Seg) (file : Seg) : List Seg :=
  parts ++ [file]

/-- Model of `DirectoryPath::Enter(Directory)`: pushes the argument, unvalidated. -/
def DirectoryPath.enter (parts : List Seg) (dir : Seg) : List Seg :=
  parts ++ [dir]

/-- Model of `DirectoryPath::Exit`: pops the last part. -/
def DirectoryPath.exit (parts : List Seg) : List Seg := parts.dropLast

/-- A raw directory listing as the OS reports it: `none` when the directory
cannot be opened (`opendir` returned null), otherwise the entries in
enumeration order, each a name with its is-file flag (`d_type != DT_DIR`). -/
abbrev RawListing := Option (List (Seg × Bool))

/-- Model of `ProcessDirectoryContents`: returns immediately (yielding nothing) when
the directory cannot be opened, and otherwise reports every entry except
`"."` and `".."`. -/
def processDirectoryContents : RawListing → List (Seg × Bool)
  | none => []
  | some entries => entries.filter (fun e => e.1 ≠ ['.'] ∧ e.1 ≠ ['.', '.'])

/-- Model of `DirectoryPath::ListFiles`: the names reported with the is-file flag. -/
def listFiles (listing : RawListing) : List Seg :=
  ((processDirectoryContents listing).filter (fun e => e.2)).map (fun e => e.1)

/-- Model of `DirectoryPath::ListDirectories`: the names reported as directories. -/
def listDirectories (listing : RawListing) : List Seg :=
  ((processDirectoryContents listing).filter (fun e => !e.2)).map (fun e => e.1)

/-- The listing collaborator seen by the walker: for every absolute part
list, the files and the subdirectory names at that path. -/
abbrev Lister := List Seg → List Seg × List Seg

/-- The collaborator induced by raw OS listings through
`ListFiles`/`ListDirectories`. -/
def listerOf (osList : List Seg → RawListing) : Lister :=
  fun p => (listFiles (osList p), listDirectories (osList p))

/-- The body of one iteration of the `Walk` loop, given the popped
transition `t`: an empty transition is `Marker.Exit()`; otherwise
`Marker.Enter(t)`, push the ascend sentinel, prepend the new directory's
transitions, and process its files (each reported as `Marker.Select`). -/
def walkStep (fs : Lister) (marker : List Seg) (t : Seg) (rest : List Seg)
    (acc : List (List Seg)) : List Seg × List Seg × List (List Seg) :=
  if t = [] then (marker.dropLast, rest, acc)
  else
    let m2 := marker ++ [t]
    (m2, (fs m2).2 ++ [] :: rest, acc ++ (fs m2).1.map (fun f => m2 ++ [f]))

/-- The `while (!Transitions.empty())` loop of `DirectoryPath::Walk`,
with explicit fuel (`none` models non-termination within the fuel):
state is the marker, the pending transitions, and the files reported so
far in order. -/
def walkLoop (fs : Lister) :
    Nat → List Seg → List Seg → List (List Seg) → Option (List Seg × List (List Seg))
  | _, marker, [], acc => some (marker, acc)
  | 0, _, _ :: _, _ => none
  | fuel + 1, marker, t :: rest, acc =>
    let s := walkStep fs marker t rest acc
    walkLoop fs fuel s.1 s.2.1 s.2.2

/-- Model of `DirectoryPath::Walk`: process the root's own files, queue its
subdirectories, then run the loop.  Returns the final marker and the
reported file paths in callback order. -/
def walk (fs : Lister) (fuel : Nat) (root : List Seg) :
    Option (List Seg × List (List Seg)) :=
  walkLoop fs fuel root (fs root).2 ((fs root).1.map (fun f => root ++ [f]))

/-! A finite acyclic directory tree, used to describe the environment the
walker runs against.  `FSTree`/`FSForest` is a rose tree of directories:
each node carries its immediate files and its named subdirectories in
listing order. -/

mutual

inductive FSTree where
  | node : List Seg → FSForest → FSTree
  deriving DecidableEq

inductive FSForest where
  | nil : FSForest
  | cons : Seg → FSTree → FSForest → FSForest
  deriving DecidableEq

end

/-- The immediate files of a tree's root. -/
def FSTree.files : FSTree → List Seg
  | .node fs _ => fs

/-- The subdirectory forest of a tree's root. -/
def FSTree.subdirs : FSTree → FSForest
  | .node _ ds => ds

/-- The names of a forest's trees, in listing order. -/
def FSForest.names : FSForest → List Seg
  | .nil => []
  | .cons n _ rest => n :: rest.names

mutual

/-- Number of loop iterations `Walk` spends strictly below a tree's root:
one descend and one ascend per subdirectory, plus the subtree's own cost. -/
def FSTree.cost : FSTree → Nat
  | .node _ ds => ds.cost

/-- Loop iterations needed to drain a forest's transitions. -/
def FSForest.cost : FSForest → Nat
  | .nil => 0
  | .cons _ t rest => 2 + t.cost + rest.cost

end

mutual

/-- Reference depth-first pre-order traversal: a directory's own files (in
listing order), then each subdirectory's subtree in listing order. -/
def FSTree.walkRef : FSTree → List Seg → List (List Seg)
  | .node fs ds, p => fs.map (fun f => p ++ [f]) ++ ds.walkRef p

/-- Reference traversal of a forest of subdirectories of `p`. -/
def FSForest.walkRef : FSForest → List Seg → List (List Seg)
  | .nil, _ => []
  | .cons n t rest, p => t.walkRef (p ++ [n]) ++ rest.walkRef p

end

mutual

/-- The listing collaborator `fs` describes tree `t` at path `p`: at `p` it
returns exactly `t`'s files and subdirectory names, and recursively so
below. -/
def FSTree.Rep (fs : Lister) : FSTree → List Seg → Prop
  | .node fls ds, p => fs p = (fls, ds.names) ∧ ds.Rep fs p

/-- `fs` describes every tree of the forest under its name below `p`.
Subdirectory names are nonempty, as `readdir` never reports an empty entry
name. -/
def FSForest.Rep (fs : Lister) : FSForest → List Seg → Prop
  | .nil, _ => True
  | .cons n t rest, p => n ≠ [] ∧ t.Rep fs (p ++ [n]) ∧ rest.Rep fs p

end

/-! Spec-side definitions, used to state the claims' properties. -/

/-- The length of the longest common segment prefix of two paths, found by
lock-step exact comparison stopping at the first mismatch or exhaustion
(spec §4.4). -/
def commonPrefixLen : List Seg → List Seg → Nat
  | [], _ => 0
  | _ :: _, [] => 0
  | a :: as, b :: bs => if a = b then commonPrefixLen as bs + 1 else 0

/-- Net effect of one token on the size of the normalizer's segment stack:
empty and `"."` leave it unchanged, `".."` pops one, anything else pushes
one. -/
def tokenWeight (tok : Seg) : Int :=
  if tok = [] then 0
  else if tok = ['.', '.'] then -1
  else if tok = ['.'] then 0
  else 1

/-- Running stack-size change of a token list. -/
def runSum (ts : List Seg) : Int := (ts.map tokenWeight).sum

/-- A valid segment: non-empty, not `"."`, not `".."`, and containing no
separator (spec §3). -/
abbrev GoodSeg (p : Seg) : Prop :=
  p ≠ [] ∧ p ≠ ['.'] ∧ p ≠ ['.', '.'] ∧ '/' ∉ p

/-- A fully normalized segment sequence: every segment is valid. -/
abbrev Normalized (parts : List Seg) : Prop := ∀ p ∈ parts, GoodSeg p

/-- A navigation call on a `DirectoryPath`: `Enter(s)` or `Exit()`. -/
inductive NavOp where
  | enter : Seg → NavOp
  | exitDir : NavOp
  deriving DecidableEq

/-- Run a sequence of navigation calls against a part list. -/
def applyOps : List NavOp → List Seg → List Seg
  | [], parts => parts
  | .enter s :: ops, parts => applyOps ops (DirectoryPath.enter parts s)
  | .exitDir :: ops, parts => applyOps ops (DirectoryPath.exit parts)

/-- A navigation call whose argument (if any) is a valid segment. -/
def opGood : NavOp → Prop
  | .enter s => GoodSeg s
  | .exitDir => True

instance (op : NavOp) : Decidable (opGood op) :=
  match op with
  | .enter s => inferInstanceAs (Decidable (GoodSeg s))
  | .exitDir => .isTrue trivial

/-- Number of pending ascend sentinels (empty transitions) in the walker's
work list. -/
def pendingAscends : List Seg → Nat
  | [] => 0
  | t :: rest => (if t = [] then 1 else 0) + pendingAscends rest

/-- The walker's cursor consistency invariant: the marker extends the walk
root by exactly as many segments as there are pending ascend sentinels, so
every completed descend is paired with a pending ascend and executing all
pending ascends returns the marker to the root. -/
def MarkerInv (root marker : List Seg) (transitions : List Seg) : Prop :=
  ∃ ext, marker = root ++ ext ∧ pendingAscends transitions = ext.length

/-! Concrete fixtures for witnesses (spec §8's walker example: root `R`
with files `f1`, `f3` and subdirectory `D` containing file `f2`). -/

/-- Example collaborator: root has files `f1`, `f3` and subdirectory `D`;
`D` has file `f2`. -/
def exFS : Lister := fun p =>
  if p = [] then (["f1".data, "f3".data], ["D".data])
  else if p = ["D".data] then (["f2".data], []) else ([], [])

/-- The directory tree `exFS` describes at the root. -/
def exTree : FSTree :=
  .node ["f1".data, "f3".data] (.cons "D".data (.node ["f2".data] .nil) .nil)

/-- Example raw OS listings with an unreadable subdirectory `bad` and a
readable sibling `good` containing file `g`. -/
def exOsList : List Seg → RawListing := fun p =>
  if p = [] then some [(".".data, false), ("..".data, false),
    ("bad".data, false), ("good".data, false)]
  else if p = ["good".data] then some [("g".data, true)]
  else none

/-- The tree `listerOf exOsList` describes: `bad` is indistinguishable from
an empty directory. -/
def exOsTree : FSTree :=
  .node [] (.cons "bad".data (.node [] .nil)
    (.cons "good".data (.node ["g".data] .nil) .nil))

end RenGeneral


/-! Helper lemmas about the walker loop. -/

namespace RenGeneral

theorem walkLoop_nil (fs : Lister) (fuel : Nat) (m : List Seg) (acc : List (List Seg)) :
    walkLoop fs fuel m [] acc = some (m, acc) := by
  cases fuel <;> simp [walkLoop]

theorem walkLoop_cons (fs : Lister) (fuel : Nat) (m : List Seg) (t : Seg)
    (r : List Seg) (acc : List (List Seg)) :
    walkLoop fs (fuel + 1) m (t :: r) acc
      = walkLoop fs fuel (walkStep fs m t r acc).1 (walkStep fs m t r acc).2.1
          (walkStep fs m t r acc).2.2 := by
  simp [walkLoop]

theorem walkLoop_cons_ascend (fs : Lister) (fuel : Nat) (m : List Seg)
    (rest : List Seg) (acc : List (List Seg)) :
    walkLoop fs (fuel + 1) m ([] :: rest) acc = walkLoop fs fuel m.dropLast rest acc := by
  simp [walkLoop, walkStep]

theorem walkLoop_cons_descend (fs : Lister) (fuel : Nat) (m : List Seg) (t : Seg)
    (rest : List Seg) (acc : List (List Seg)) (h : t ≠ []) :
    walkLoop fs (fuel + 1) m (t :: rest) acc
      = walkLoop fs fuel (m ++ [t]) ((fs (m ++ [t])).2 ++ [] :: rest)
          (acc ++ (fs (m ++ [t])).1.map fun f => (m ++ [t]) ++ [f]) := by
  simp [walkLoop, walkStep, h]

theorem walkLoop_mono (fs : Lister) :
    ∀ (fuel fuel' : Nat) (m : List Seg) (T : List Seg) (acc : List (List Seg))
      (r : List Seg × List (List Seg)), fuel ≤ fuel' →
      walkLoop fs fuel m T acc = some r → walkLoop fs fuel' m T acc = some r := by
  intro fuel
  induction fuel with
  | zero =>
    intro fuel' m T acc r _ h
    cases T with
    | nil => simpa [walkLoop_nil] using h
    | cons t rest => simp [walkLoop] at h
  | succ n ih =>
    intro fuel' m T acc r hle h
    cases T with
    | nil => simpa [walkLoop_nil] using h
    | cons t rest =>
      obtain ⟨k, rfl⟩ : ∃ k, fuel' = k + 1 := ⟨fuel' - 1, by omega⟩
      rw [walkLoop_cons] at h ⊢
      exact ih k _ _ _ _ (by omega) h

theorem walkLoop_drain (fs : Lister) :
    ∀ (C : Nat) (ds : FSForest) (p : List Seg) (rest : List Seg)
      (acc : List (List Seg)) (fuel : Nat),
      ds.cost = C → ds.Rep fs p →
      walkLoop fs (C + fuel) p (ds.names ++ rest) acc
        = walkLoop fs fuel p rest (acc ++ ds.walkRef p) := by
  intro C
  induction C using Nat.strong_induction_on with
  | _ C ih =>
    intro ds p rest acc fuel hC hRep
    cases ds with
    | nil =>
      simp only [FSForest.cost] at hC
      subst hC
      simp [FSForest.names, FSForest.walkRef]
    | cons n t restF =>
      simp only [FSForest.Rep] at hRep
      obtain ⟨hn, hT, hRest⟩ := hRep
      cases t with
      | node fls ds =>
        simp only [FSTree.Rep] at hT
        obtain ⟨hfs, hds⟩ := hT
        simp only [FSForest.cost, FSTree.cost] at hC
        simp only [FSForest.names, FSForest.walkRef, FSTree.walkRef, List.cons_append]
        have hCf : C + fuel = (FSForest.cost ds + (1 + FSForest.cost restF + fuel)) + 1 := by
          omega
        rw [hCf, walkLoop_cons_descend fs _ p n _ acc hn]
        simp only [hfs]
        rw [ih (FSForest.cost ds) (by omega) ds (p ++ [n])
          ([] :: (FSForest.names restF ++ rest)) _ _ rfl hds]
        have h1 : 1 + FSForest.cost restF + fuel = (FSForest.cost restF + fuel) + 1 := by
          omega
        rw [h1, walkLoop_cons_ascend, List.dropLast_concat]
        rw [ih (FSForest.cost restF) (by omega) restF p rest _ fuel rfl hRest]
        simp [List.append_assoc]

theorem walk_walkRef (fs : Lister) (t : FSTree) (root : List Seg) (fuel : Nat)
    (hrep : t.Rep fs root) (hfuel : t.cost ≤ fuel) :
    walk fs fuel root = some (root, t.walkRef root) := by
  cases t with
  | node fls ds =>
    simp only [FSTree.Rep] at hrep
    obtain ⟨hfs, hds⟩ := hrep
    have hf' : FSForest.cost ds ≤ fuel := by simpa [FSTree.cost] using hfuel
    simp only [walk, hfs]
    have h1 := walkLoop_drain fs (FSForest.cost ds) ds root []
      (fls.map fun f => root ++ [f]) (fuel - FSForest.cost ds) rfl hds
    rw [List.append_nil] at h1
    have h2 : FSForest.cost ds + (fuel - FSForest.cost ds) = fuel := by omega
    rw [h2] at h1
    rw [h1, walkLoop_nil]
    simp [FSTree.walkRef]

end RenGeneral

/-! Helper lemmas for the walker's marker invariant. -/

namespace RenGeneral

theorem pendingAscends_cons (t : Seg) (rest : List Seg) :
    pendingAscends (t :: rest) = (if t = [] then 1 else 0) + pendingAscends rest :=
  rfl

theorem pendingAscends_append (a b : List Seg) :
    pendingAscends (a ++ b) = pendingAscends a + pendingAscends b := by
  induction a with
  | nil => simp [pendingAscends]
  | cons t rest ih =>
    rw [List.cons_append, pendingAscends_cons, pendingAscends_cons, ih]
    omega

theorem pendingAscends_of_no_empty (L : List Seg) (h : [] ∉ L) :
    pendingAscends L = 0 := by
  induction L with
  | nil => rfl
  | cons t rest ih =>
    simp only [List.mem_cons] at h
    push_neg at h
    have ht : ¬t = [] := fun he => h.1 he.symm
    rw [pendingAscends_cons, if_neg ht, ih h.2]

theorem walkStep_inv (fs : Lister) (root : List Seg)
    (hfs : ∀ p, [] ∉ (fs p).2)
    (marker : List Seg) (t : Seg) (rest : List Seg) (acc : List (List Seg))
    (h : MarkerInv root marker (t :: rest)) :
    MarkerInv root (walkStep fs marker t rest acc).1
      (walkStep fs marker t rest acc).2.1 := by
  obtain ⟨ext, hm, hp⟩ := h
  by_cases ht : t = []
  · subst ht
    have hstep : walkStep fs marker [] rest acc = (marker.dropLast, rest, acc) := by
      simp [walkStep]
    rw [hstep]
    show MarkerInv root marker.dropLast rest
    rw [pendingAscends_cons, if_pos rfl] at hp
    have hext : ext ≠ [] := by
      intro h0
      subst h0
      simp only [List.length_nil] at hp
      omega
    refine ⟨ext.dropLast, ?_, ?_⟩
    · rw [hm, List.dropLast_append_of_ne_nil _ hext]
    · rw [List.length_dropLast]
      omega
  · have hstep : walkStep fs marker t rest acc
        = (marker ++ [t], (fs (marker ++ [t])).2 ++ [] :: rest,
            acc ++ (fs (marker ++ [t])).1.map fun f => (marker ++ [t]) ++ [f]) := by
      simp [walkStep, ht]
    rw [hstep]
    show MarkerInv root (marker ++ [t]) ((fs (marker ++ [t])).2 ++ [] :: rest)
    rw [pendingAscends_cons, if_neg ht] at hp
    refine ⟨ext ++ [t], by rw [hm, List.append_assoc], ?_⟩
    rw [pendingAscends_append, pendingAscends_of_no_empty _ (hfs (marker ++ [t])),
      pendingAscends_cons, if_pos rfl, List.length_append]
    simp only [List.length_cons, List.length_nil]
    omega

theorem walkLoop_root (fs : Lister) (root : List Seg)
    (hfs : ∀ p, [] ∉ (fs p).2) :
    ∀ (fuel : Nat) (marker : List Seg) (T : List Seg) (acc : List (List Seg))
      (m : List Seg) (out : List (List Seg)),
      MarkerInv root marker T → walkLoop fs fuel marker T acc = some (m, out) →
      m = root := by
  intro fuel
  induction fuel with
  | zero =>
    intro marker T acc m out hinv h
    cases T with
    | nil =>
      rw [walkLoop_nil] at h
      obtain ⟨ext, hm, hp⟩ := hinv
      have hext : ext = [] := by
        cases ext with
        | nil => rfl
        | cons a l =>
          rw [show pendingAscends [] = 0 from rfl] at hp
          simp at hp
      subst hext
      rw [List.append_nil] at hm
      have h2 : marker = m := congrArg Prod.fst (Option.some.inj h)
      rw [← h2, hm]
    | cons t rest => simp [walkLoop] at h
  | succ n ih =>
    intro marker T acc m out hinv h
    cases T with
    | nil =>
      rw [walkLoop_nil] at h
      obtain ⟨ext, hm, hp⟩ := hinv
      have hext : ext = [] := by
        cases ext with
        | nil => rfl
        | cons a l =>
          rw [show pendingAscends [] = 0 from rfl] at hp
          simp at hp
      subst hext
      rw [List.append_nil] at hm
      have h2 : marker = m := congrArg Prod.fst (Option.some.inj h)
      rw [← h2, hm]
    | cons t rest =>
      rw [walkLoop_cons] at h
      exact ih _ _ _ _ _ (walkStep_inv fs root hfs marker t rest acc hinv) h

end RenGeneral

/-! Claim theorems for the directory walker. -/

namespace RenGeneral

/-- C1: for every finite acyclic directory tree (a tree `t` that the listing
collaborator `fs` describes at `root`, per `FSTree.Rep`), `DirectoryPath::Walk`
reports exactly the reference depth-first pre-order traversal
`FSTree.walkRef`: by its definition, every visited directory's immediate
files (in listing order) precede every file of any of its subdirectories,
directories are visited depth-first in pre-order, and sibling subdirectories
are traversed in the order the listing collaborator returned them; the
marker finishes back at `root`. -/
theorem C1_walk_preorder (fs : Lister) (t : FSTree) (root : List Seg) (fuel : Nat)
    (hrep : t.Rep fs root) (hfuel : t.cost ≤ fuel) :
    walk fs fuel root = some (root, t.walkRef root) :=
  walk_walkRef fs t root fuel hrep hfuel

/-- Witness for C1 on the spec's example: root with files `f1`, `f3` and
subdirectory `D` containing `f2`; the callback order is `f1`, `f3`, `D/f2`. -/
theorem C1_witness :
    walk exFS 2 [] = some ([], [["f1".data], ["f3".data], ["D".data, "f2".data]]) := by
  have h := C1_walk_preorder exFS exTree [] 2
    ⟨by decide, by decide, ⟨by decide, trivial⟩, trivial⟩ (by decide)
  exact h.trans (by decide)

/-- C8: the walker's cursor invariant.  First conjunct: every loop iteration
preserves `MarkerInv`, i.e. before each pending action executes the marker
extends the walk root by exactly the number of pending ascend sentinels
(each action's descend target is interpreted one level below the current
marker, and every completed descend has a pending paired ascend).  Second
conjunct: whenever the work list empties and `Walk` terminates, the marker
is back at the original root. -/
theorem C8_marker_invariant (fs : Lister) (root : List Seg)
    (hfs : ∀ p, [] ∉ (fs p).2) :
    (∀ (marker : List Seg) (t : Seg) (rest : List Seg) (acc : List (List Seg)),
        MarkerInv root marker (t :: rest) →
        MarkerInv root (walkStep fs marker t rest acc).1
          (walkStep fs marker t rest acc).2.1)
    ∧ (∀ (fuel : Nat) (m : List Seg) (out : List (List Seg)),
        walk fs fuel root = some (m, out) → m = root) := by
  constructor
  · exact fun marker t rest acc h => walkStep_inv fs root hfs marker t rest acc h
  · intro fuel m out h
    refine walkLoop_root fs root hfs fuel root (fs root).2 _ m out ?_ h
    exact ⟨[], by simp, by simpa using pendingAscends_of_no_empty _ (hfs root)⟩

/-- Witness for C8: the invariant is preserved across the ascend pending at
marker `D`, and the completed example walk ends with the marker at the
root. -/
theorem C8_witness :
    MarkerInv [] (walkStep exFS ["D".data] [] [] []).1
      (walkStep exFS ["D".data] [] [] []).2.1
    ∧ ([] : List Seg) = [] := by
  have hfs : ∀ p, [] ∉ (exFS p).2 := by
    intro p
    by_cases h1 : p = []
    · subst h1; decide
    · by_cases h2 : p = ["D".data]
      · subst h2; decide
      · simp [exFS, h1, h2]
  refine ⟨(C8_marker_invariant exFS [] hfs).1 ["D".data] [] [] []
    ⟨["D".data], rfl, by decide⟩, ?_⟩
  exact (C8_marker_invariant exFS [] hfs).2 2
    [] [["f1".data], ["f3".data], ["D".data, "f2".data]] (by decide)

/-- C9: an unreadable directory raises no error: its listing is empty, the
whole walk is identical to the walk of an environment where that directory
is a readable empty directory, and the walk still reports the full
traversal of the tree the listings describe (in which the unreadable
directory contributes no files and no subdirectories), so siblings are
still visited. -/
theorem C9_unreadable_dir (osList : List Seg → RawListing) (bad : List Seg)
    (hbad : osList bad = none) :
    listerOf osList bad = ([], [])
    ∧ (∀ (fuel : Nat) (root : List Seg),
        walk (listerOf osList) fuel root
          = walk (listerOf fun q => if q = bad then some [] else osList q) fuel root)
    ∧ (∀ (t : FSTree) (root : List Seg) (fuel : Nat),
        FSTree.Rep (listerOf osList) t root → t.cost ≤ fuel →
        walk (listerOf osList) fuel root = some (root, t.walkRef root)) := by
  have h1 : listerOf osList bad = ([], []) := by
    simp [listerOf, hbad, listFiles, listDirectories, processDirectoryContents]
  refine ⟨h1, ?_, fun t root fuel hrep hc => walk_walkRef _ t root fuel hrep hc⟩
  intro fuel root
  have hsame : (listerOf fun q => if q = bad then some [] else osList q)
      = listerOf osList := by
    funext q
    by_cases hq : q = bad
    · subst hq
      simp [listerOf, hbad, listFiles, listDirectories, processDirectoryContents]
    · simp [listerOf, hq]
  rw [hsame]

/-- Witness for C9: with `bad` unreadable, its listing is empty and the
walk still reports the sibling's file `good/g`. -/
theorem C9_witness :
    listerOf exOsList ["bad".data] = ([], [])
    ∧ walk (listerOf exOsList) 4 [] = some ([], [["good".data, "g".data]]) := by
  have h := C9_unreadable_dir exOsList ["bad".data] (by decide)
  refine ⟨h.1, ?_⟩
  have h3 := h.2.2 exOsTree [] 4
    ⟨by decide, by decide, ⟨by decide, trivial⟩, by decide, ⟨by decide, trivial⟩, trivial⟩
    (by decide)
  exact h3.trans (by decide)

/-- C10: `ListFiles` and `ListDirectories` never return the entries `"."`
or `".."`: both names are filtered out of every raw listing before
classification. -/
theorem C10_no_dot_entries (listing : RawListing) :
    ['.'] ∉ listFiles listing ∧ ['.', '.'] ∉ listFiles listing
    ∧ ['.'] ∉ listDirectories listing ∧ ['.', '.'] ∉ listDirectories listing := by
  cases listing with
  | none =>
    simp [listFiles, listDirectories, processDirectoryContents]
  | some entries =>
    simp only [listFiles, listDirectories, processDirectoryContents]
    refine ⟨?_, ?_, ?_, ?_⟩ <;>
    · intro hmem
      simp only [List.mem_map, List.mem_filter] at hmem
      obtain ⟨e, ⟨hef, _⟩, he1⟩ := hmem
      have := hef.2
      simp only [decide_eq_true_eq] at this
      rw [he1] at this
      simp at this

end RenGeneral

/-! Helper lemmas about the tokenizer and the normalizer. -/

namespace RenGeneral

theorem tokenize_cons_sep (rest : List Char) :
    tokenize ('/' :: rest) = [] :: tokenize rest := by
  simp [tokenize]

theorem tokenize_ne_nil : ∀ s : List Char, tokenize s ≠ [] := by
  intro s
  cases s with
  | nil => simp [tokenize]
  | cons c rest =>
    by_cases hc : c = '/'
    · simp [tokenize, hc]
    · simp only [tokenize, if_neg hc]
      cases htr : tokenize rest with
      | nil => simp
      | cons t ts => simp

theorem tokenize_cons_other (c : Char) (rest : List Char) (hc : c ≠ '/')
    (t : Seg) (ts : List Seg) (htr : tokenize rest = t :: ts) :
    tokenize (c :: rest) = (c :: t) :: ts := by
  simp only [tokenize, if_neg hc, htr]

theorem tokenize_no_sep : ∀ (s : List Char), ∀ tok ∈ tokenize s, '/' ∉ tok := by
  intro s
  induction s with
  | nil =>
    intro tok h
    simp [tokenize] at h
    subst h
    simp
  | cons c rest ih =>
    intro tok h
    by_cases hc : c = '/'
    · subst hc
      rw [tokenize_cons_sep] at h
      rcases List.mem_cons.1 h with rfl | h2
      · simp
      · exact ih tok h2
    · obtain ⟨t, ts, htr⟩ : ∃ t ts, tokenize rest = t :: ts := by
        cases htr2 : tokenize rest with
        | nil => exact absurd htr2 (tokenize_ne_nil rest)
        | cons a b => exact ⟨a, b, rfl⟩
      rw [tokenize_cons_other c rest hc t ts htr] at h
      have hts : ∀ x ∈ t :: ts, '/' ∉ x := by
        rw [← htr]
        exact ih
      rcases List.mem_cons.1 h with rfl | h2
      · intro hmem
        rcases List.mem_cons.1 hmem with h3 | h3
        · exact hc h3.symm
        · exact hts t (List.mem_cons_self t ts) h3
      · exact hts tok (List.mem_cons_of_mem t h2)

theorem normalizeTokens_good : ∀ (ts : List Seg) (parts parts' : List Seg),
    (∀ p ∈ parts, GoodSeg p) → (∀ tok ∈ ts, '/' ∉ tok) →
    normalizeTokens parts ts = some parts' → ∀ p ∈ parts', GoodSeg p := by
  intro ts
  induction ts with
  | nil =>
    intro parts parts' hp _ h
    obtain rfl := Option.some.inj h
    exact hp
  | cons tok rest ih =>
    intro parts parts' hp htok h
    have htok' : ∀ t ∈ rest, '/' ∉ t := fun t ht => htok t (List.mem_cons_of_mem _ ht)
    simp only [normalizeTokens] at h
    by_cases h1 : tok = []
    · rw [if_pos h1] at h
      exact ih parts parts' hp htok' h
    · rw [if_neg h1] at h
      by_cases h2 : tok = ['.', '.']
      · rw [if_pos h2] at h
        by_cases h3 : parts = []
        · rw [if_pos h3] at h
          exact absurd h (by simp)
        · rw [if_neg h3] at h
          exact ih _ parts' (fun p hp' => hp p (List.dropLast_subset _ hp')) htok' h
      · rw [if_neg h2] at h
        by_cases h4 : tok = ['.']
        · rw [if_pos h4] at h
          exact ih parts parts' hp htok' h
        · rw [if_neg h4] at h
          refine ih _ parts' ?_ htok' h
          intro p hp'
          rcases List.mem_append.1 hp' with hmem | hmem
          · exact hp p hmem
          · rw [List.mem_singleton] at hmem
            subst hmem
            exact ⟨h1, h4, h2, htok _ (List.mem_cons_self _ _)⟩

theorem pathConstruct_good (s : Seg) (parts : List Seg)
    (h : pathConstruct s = some parts) : ∀ p ∈ parts, GoodSeg p := by
  unfold pathConstruct at h
  by_cases h1 : s = []
  · rw [if_pos h1] at h
    exact absurd h (by simp)
  · rw [if_neg h1] at h
    cases habs : isAbsolute s
    · simp [habs] at h
    · simp only [habs, Bool.not_true] at h
      rw [if_neg (by simp)] at h
      exact normalizeTokens_good (tokenize s) [] parts (by simp) (tokenize_no_sep s) h

/-- C2: every successful construction yields a fully normalized segment
sequence, with no empty, `"."`, or `".."` segments; in particular
`/a/./b/../c` and `/a/c` construct identical segment sequences. -/
theorem C2_normalized_construction :
    (∀ (s : Seg) (parts : List Seg), pathConstruct s = some parts →
        [] ∉ parts ∧ ['.'] ∉ parts ∧ ['.', '.'] ∉ parts)
    ∧ pathConstruct "/a/./b/../c".data = pathConstruct "/a/c".data
    ∧ pathConstruct "/a/c".data = some ["a".data, "c".data] := by
  refine ⟨?_, by decide, by decide⟩
  intro s parts h
  have hg := pathConstruct_good s parts h
  exact ⟨fun hmem => (hg [] hmem).1 rfl, fun hmem => (hg ['.'] hmem).2.1 rfl,
    fun hmem => (hg ['.', '.'] hmem).2.2.1 rfl⟩

/-- Witness for C2 at the spec's example input. -/
theorem C2_witness :
    [] ∉ ["a".data, "c".data] ∧ ['.'] ∉ ["a".data, "c".data]
    ∧ ['.', '.'] ∉ ["a".data, "c".data] :=
  C2_normalized_construction.1 "/a/./b/../c".data ["a".data, "c".data] (by decide)

end RenGeneral

/-! Helper lemmas characterizing when normalization fails. -/

namespace RenGeneral

theorem runSum_cons (t : Seg) (ts : List Seg) :
    runSum (t :: ts) = tokenWeight t + runSum ts := by
  simp [runSum]

theorem normalizeTokens_some_nonneg : ∀ (ts : List Seg) (parts parts' : List Seg),
    normalizeTokens parts ts = some parts' →
    ∀ n, 0 ≤ (parts.length : Int) + runSum (ts.take n) := by
  intro ts
  induction ts with
  | nil =>
    intro parts parts' _ n
    simp only [List.take_nil, runSum, List.map_nil, List.sum_nil, add_zero]
    omega
  | cons tok rest ih =>
    intro parts parts' h n
    cases n with
    | zero =>
      simp only [List.take_zero, runSum, List.map_nil, List.sum_nil, add_zero]
      omega
    | succ k =>
      rw [List.take_succ_cons, runSum_cons]
      simp only [normalizeTokens] at h
      by_cases h1 : tok = []
      · rw [if_pos h1] at h
        have hk := ih parts parts' h k
        rw [h1, show tokenWeight [] = 0 from rfl]
        omega
      · rw [if_neg h1] at h
        by_cases h2 : tok = ['.', '.']
        · rw [if_pos h2] at h
          by_cases h3 : parts = []
          · rw [if_pos h3] at h
            exact absurd h (by simp)
          · rw [if_neg h3] at h
            have hk := ih _ parts' h k
            rw [List.length_dropLast] at hk
            have hpos : 0 < parts.length := List.length_pos.2 h3
            rw [h2, show tokenWeight ['.', '.'] = -1 from by decide]
            omega
        · rw [if_neg h2] at h
          by_cases h4 : tok = ['.']
          · rw [if_pos h4] at h
            have hk := ih parts parts' h k
            rw [h4, show tokenWeight ['.'] = 0 from by decide]
            omega
          · rw [if_neg h4] at h
            have hk := ih _ parts' h k
            rw [List.length_append] at hk
            simp only [List.length_cons, List.length_nil] at hk
            rw [show tokenWeight tok = 1 from by simp [tokenWeight, h1, h2, h4]]
            omega

theorem normalizeTokens_none_exists : ∀ (ts : List Seg) (parts : List Seg),
    normalizeTokens parts ts = none →
    ∃ n, (parts.length : Int) + runSum (ts.take n) < 0 := by
  intro ts
  induction ts with
  | nil =>
    intro parts h
    simp [normalizeTokens] at h
  | cons tok rest ih =>
    intro parts h
    simp only [normalizeTokens] at h
    by_cases h1 : tok = []
    · rw [if_pos h1] at h
      obtain ⟨k, hk⟩ := ih parts h
      refine ⟨k + 1, ?_⟩
      rw [List.take_succ_cons, runSum_cons, h1, show tokenWeight [] = 0 from rfl]
      omega
    · rw [if_neg h1] at h
      by_cases h2 : tok = ['.', '.']
      · rw [if_pos h2] at h
        by_cases h3 : parts = []
        · refine ⟨1, ?_⟩
          rw [List.take_succ_cons, List.take_zero, runSum_cons, h2,
            show tokenWeight ['.', '.'] = -1 from by decide,
            show runSum [] = 0 from rfl, h3]
          simp only [List.length_nil]
          omega
        · rw [if_neg h3] at h
          obtain ⟨k, hk⟩ := ih _ h
          refine ⟨k + 1, ?_⟩
          rw [List.take_succ_cons, runSum_cons, h2,
            show tokenWeight ['.', '.'] = -1 from by decide]
          rw [List.length_dropLast] at hk
          have hpos : 0 < parts.length := List.length_pos.2 h3
          omega
      · rw [if_neg h2] at h
        by_cases h4 : tok = ['.']
        · rw [if_pos h4] at h
          obtain ⟨k, hk⟩ := ih parts h
          refine ⟨k + 1, ?_⟩
          rw [List.take_succ_cons, runSum_cons, h4, show tokenWeight ['.'] = 0 from by decide]
          omega
        · rw [if_neg h4] at h
          obtain ⟨k, hk⟩ := ih _ h
          refine ⟨k + 1, ?_⟩
          rw [List.take_succ_cons, runSum_cons,
            show tokenWeight tok = 1 from by simp [tokenWeight, h1, h2, h4]]
          rw [List.length_append] at hk
          simp only [List.length_cons, List.length_nil] at hk
          omega

/-- C3: construction fails (`Error::Construction`, modelled as `none`) if
and only if the input is empty, or fails the absolute-prefix predicate, or
some `".."` token tries to pop an empty segment stack — expressed as a
token prefix whose net stack-size change is negative; no other input
fails. -/
theorem C3_error_iff (s : Seg) :
    pathConstruct s = none ↔
      s = [] ∨ isAbsolute s = false ∨ ∃ n, runSum ((tokenize s).take n) < 0 := by
  constructor
  · intro h
    unfold pathConstruct at h
    by_cases h1 : s = []
    · exact Or.inl h1
    · rw [if_neg h1] at h
      cases habs : isAbsolute s
      · exact Or.inr (Or.inl rfl)
      · right
        right
        simp only [habs, Bool.not_true] at h
        rw [if_neg (by simp)] at h
        obtain ⟨n, hn⟩ := normalizeTokens_none_exists (tokenize s) [] h
        exact ⟨n, by simpa using hn⟩
  · intro h
    rcases h with h1 | h2 | ⟨n, hn⟩
    · simp [pathConstruct, h1]
    · unfold pathConstruct
      by_cases h1 : s = []
      · simp [h1]
      · rw [if_neg h1]
        simp [h2]
    · unfold pathConstruct
      by_cases h1 : s = []
      · simp [h1]
      · rw [if_neg h1]
        cases habs : isAbsolute s
        · simp [habs]
        · simp only [habs, Bool.not_true]
          rw [if_neg (by simp)]
          cases hres : normalizeTokens [] (tokenize s) with
          | none => rfl
          | some parts =>
            have hge := normalizeTokens_some_nonneg (tokenize s) [] parts hres n
            simp only [List.length_nil] at hge
            omega

end RenGeneral

/-! Helper lemmas for the stringify-then-parse roundtrip. -/

namespace RenGeneral

theorem tokenize_of_no_sep (seg : Seg) (h : '/' ∉ seg) : tokenize seg = [seg] := by
  induction seg with
  | nil => rfl
  | cons c rest ih =>
    simp only [List.mem_cons] at h
    push_neg at h
    have hc : c ≠ '/' := fun he => h.1 he.symm
    have ihr := ih h.2
    simp only [tokenize, if_neg hc, ihr]

theorem tokenize_append_sep (seg : Seg) (rest : List Char) (h : '/' ∉ seg) :
    tokenize (seg ++ '/' :: rest) = seg :: tokenize rest := by
  induction seg with
  | nil => simpa using tokenize_cons_sep rest
  | cons c s ih =>
    simp only [List.mem_cons] at h
    push_neg at h
    have hc : c ≠ '/' := fun he => h.1 he.symm
    have ihs := ih h.2
    rw [List.cons_append]
    simp only [tokenize, if_neg hc, ihs]

theorem tokenize_seg_flatten : ∀ (ps : List Seg) (p : Seg), '/' ∉ p →
    (∀ q ∈ ps, '/' ∉ q) →
    tokenize (p ++ (ps.map (fun q => '/' :: q)).flatten) = p :: ps := by
  intro ps
  induction ps with
  | nil =>
    intro p hp _
    simp only [List.map_nil, List.flatten_nil, List.append_nil]
    exact tokenize_of_no_sep p hp
  | cons q ps ih =>
    intro p hp hq
    simp only [List.map_cons, List.flatten_cons]
    rw [show ('/' :: q) ++ (ps.map (fun r => '/' :: r)).flatten
        = '/' :: (q ++ (ps.map (fun r => '/' :: r)).flatten) from rfl]
    rw [tokenize_append_sep p _ hp]
    rw [ih q (hq q (List.mem_cons_self _ _)) (fun r hr => hq r (List.mem_cons_of_mem _ hr))]

theorem normalizeTokens_ordinary : ∀ (ts parts : List Seg),
    (∀ tok ∈ ts, tok ≠ [] ∧ tok ≠ ['.'] ∧ tok ≠ ['.', '.']) →
    normalizeTokens parts ts = some (parts ++ ts) := by
  intro ts
  induction ts with
  | nil =>
    intro parts _
    simp [normalizeTokens]
  | cons tok rest ih =>
    intro parts h
    have h0 := h tok (List.mem_cons_self _ _)
    simp only [normalizeTokens, if_neg h0.1, if_neg h0.2.2, if_neg h0.2.1]
    rw [ih (parts ++ [tok]) (fun t ht => h t (List.mem_cons_of_mem _ ht))]
    simp

theorem pathConstruct_roundtrip (parts : List Seg) (hg : ∀ p ∈ parts, GoodSeg p) :
    pathConstruct (asAbsoluteString parts) = some parts := by
  cases parts with
  | nil => decide
  | cons p ps =>
    have hgp : '/' ∉ p := (hg p (List.mem_cons_self _ _)).2.2.2
    have hgps : ∀ q ∈ ps, '/' ∉ q := fun q hq => (hg q (List.mem_cons_of_mem _ hq)).2.2.2
    have habs : asAbsoluteString (p :: ps)
        = '/' :: (p ++ (ps.map (fun q => '/' :: q)).flatten) := by
      simp [asAbsoluteString]
    rw [habs]
    unfold pathConstruct
    rw [if_neg (by simp)]
    rw [if_neg (by simp [isAbsolute])]
    rw [tokenize_cons_sep, tokenize_seg_flatten ps p hgp hgps]
    rw [show normalizeTokens [] ([] :: p :: ps) = normalizeTokens [] (p :: ps) from by
      simp [normalizeTokens]]
    rw [normalizeTokens_ordinary (p :: ps) []
      (fun t ht => ⟨(hg t ht).1, (hg t ht).2.1, (hg t ht).2.2.1⟩)]
    simp

/-- C4: parsing the absolute stringification of any constructed Path yields
the same segment sequence (normalize after stringify is the identity), and
the root Path stringifies to exactly the separator. -/
theorem C4_stringify_roundtrip :
    (∀ (s : Seg) (parts : List Seg), pathConstruct s = some parts →
        pathConstruct (asAbsoluteString parts) = some parts)
    ∧ asAbsoluteString [] = ['/'] ∧ pathConstruct ['/'] = some [] := by
  refine ⟨?_, by decide, by decide⟩
  intro s parts h
  exact pathConstruct_roundtrip parts (pathConstruct_good s parts h)

/-- Witness for C4 at the segments of `/a/c`. -/
theorem C4_witness :
    pathConstruct (asAbsoluteString ["a".data, "c".data]) = some ["a".data, "c".data] :=
  C4_stringify_roundtrip.1 "/a/c".data ["a".data, "c".data] (by decide)

end RenGeneral

/-! Helper lemmas for the common-root computation. -/

namespace RenGeneral

theorem findCommonRoot_drop : ∀ (as bs : List Seg),
    (findCommonRoot as bs).2.1 = as.drop (commonPrefixLen as bs)
    ∧ (findCommonRoot as bs).2.2 = bs.drop (commonPrefixLen as bs) := by
  intro as
  induction as with
  | nil =>
    intro bs
    cases bs <;> simp [findCommonRoot, commonPrefixLen]
  | cons a as ih =>
    intro bs
    cases bs with
    | nil => simp [findCommonRoot, commonPrefixLen]
    | cons b bs =>
      by_cases hab : a = b
      · have := ih bs
        simp [findCommonRoot, commonPrefixLen, hab, this.1, this.2]
      · simp [findCommonRoot, commonPrefixLen, hab]

theorem commonPrefixLen_self : ∀ (l : List Seg), commonPrefixLen l l = l.length := by
  intro l
  induction l with
  | nil => rfl
  | cons a l ih => simp [commonPrefixLen, ih]

/-- C5: `AsRelativeString` emits one `".."` per segment of the origin
directory beyond the common prefix (of length `commonPrefixLen`, found by
lock-step exact comparison), followed by this path's segments beyond that
prefix, separator-joined with no leading or trailing separator; it is
empty when the two segment sequences are equal. -/
theorem C5_relative_string (here fromParts : List Seg) :
    asRelativeString here fromParts
      = joinSep (List.replicate (fromParts.length - commonPrefixLen here fromParts)
          ['.', '.'] ++ here.drop (commonPrefixLen here fromParts))
    ∧ (here = fromParts → asRelativeString here fromParts = []) := by
  have hd := findCommonRoot_drop here fromParts
  have h1 : asRelativeString here fromParts
      = joinSep (List.replicate (fromParts.length - commonPrefixLen here fromParts)
          ['.', '.'] ++ here.drop (commonPrefixLen here fromParts)) := by
    show joinSep ((findCommonRoot here fromParts).2.2.map (fun _ => ['.', '.'])
        ++ (findCommonRoot here fromParts).2.1)
      = joinSep (List.replicate (fromParts.length - commonPrefixLen here fromParts)
          ['.', '.'] ++ here.drop (commonPrefixLen here fromParts))
    rw [hd.1, hd.2]
    congr 2
    rw [List.map_const']
    rw [List.length_drop]
  refine ⟨h1, fun heq => ?_⟩
  subst heq
  rw [h1, commonPrefixLen_self]
  simp [joinSep]

/-- Witness for C5: a path relative to itself is the empty string. -/
theorem C5_witness : asRelativeString ["a".data, "b".data] ["a".data, "b".data] = [] :=
  (C5_relative_string ["a".data, "b".data] ["a".data, "b".data]).2 rfl

/-- Counterexample for C6: the valid absolute input `"/"` constructs a
`FilePath` (`FilePath::FilePath(String)` delegates to `Path::Path`) with
zero segments, on which `File()` (`Parts.back()`) has no last segment. -/
theorem C6_counterexample :
    pathConstruct "/".data = some [] ∧ FilePath.file [] = none := by
  decide

/-- C6 (amended): every `FilePath` produced by `DirectoryPath::Select` has
at least one segment, its `File()` is the selected name, and its
`Directory()` is the original directory's segment sequence; construction
from an absolute string does not guarantee a segment (see the
counterexample `"/"`). -/
theorem C6_select_wellformed (parts : List Seg) (name : Seg) :
    1 ≤ (DirectoryPath.select parts name).length
    ∧ FilePath.file (DirectoryPath.select parts name) = some name
    ∧ FilePath.directory (DirectoryPath.select parts name) = parts := by
  unfold DirectoryPath.select FilePath.file FilePath.directory
  refine ⟨by simp, by simp, by simp⟩

/-- Counterexample for C7: `Enter` performs no validation, so entering the
string `".."` from the root path constructed from `"/"` leaves a `".."`
segment in the sequence. -/
theorem C7_counterexample :
    pathConstruct "/".data = some []
    ∧ ['.', '.'] ∈ DirectoryPath.enter [] ['.', '.'] := by
  decide

/-- C7 (amended): any sequence of `Enter`/`Exit` calls whose `Enter`
arguments are valid segments (non-empty, not `"."` or `".."`, no
separator) preserves full normalization, and `Select` with a valid name
yields a normalized `FilePath`; with arbitrary argument strings
normalization can be violated, since `Enter` appends its argument
unvalidated. -/
theorem C7_nav_preserves_normalized :
    ∀ (ops : List NavOp) (parts : List Seg),
      (∀ op ∈ ops, opGood op) → Normalized parts →
      Normalized (applyOps ops parts)
      ∧ (∀ name, GoodSeg name → Normalized (DirectoryPath.select (applyOps ops parts) name)) := by
  have key : ∀ (ops : List NavOp) (parts : List Seg),
      (∀ op ∈ ops, opGood op) → Normalized parts → Normalized (applyOps ops parts) := by
    intro ops
    induction ops with
    | nil =>
      intro parts _ h
      simpa [applyOps] using h
    | cons op rest ih =>
      intro parts hops hp
      cases op with
      | enter s =>
        simp only [applyOps]
        refine ih _ (fun o ho => hops o (List.mem_cons_of_mem _ ho)) ?_
        intro p hp'
        rcases List.mem_append.1 hp' with hmem | hmem
        · exact hp p hmem
        · rw [List.mem_singleton] at hmem
          subst hmem
          exact hops (.enter p) (List.mem_cons_self _ _)
      | exitDir =>
        simp only [applyOps]
        exact ih _ (fun o ho => hops o (List.mem_cons_of_mem _ ho))
          (fun p hp' => hp p (List.dropLast_subset _ hp'))
  intro ops parts hops hp
  refine ⟨key ops parts hops hp, fun name hname p hp' => ?_⟩
  rcases List.mem_append.1 hp' with hmem | hmem
  · exact key ops parts hops hp p hmem
  · rw [List.mem_singleton] at hmem
    subst hmem
    exact hname

/-- Witness for C7 (amended) on a concrete call sequence. -/
theorem C7_witness :
    Normalized (applyOps [NavOp.enter "a".data, NavOp.enter "b".data, NavOp.exitDir,
      NavOp.enter "c".data] ["x".data]) :=
  (C7_nav_preserves_normalized _ ["x".data] (by decide) (by decide)).1

end RenGeneral
